import Mathlib

/-!
Verification of the gpg-keytag token-tree codec (src/keyfile.rs) and the
comment field accessor/mutator (src/main.rs), as a shallow embedding.

Bytes are modelled as `Nat` (the relevant byte values: `(` = 40, `)` = 41,
`:` = 58, digits 48–57).  The Rust parser is built on nom combinators; its
recursion is embedded with an explicit fuel argument (`ptreeF`,
`pchildrenF`), and `fuelFor` is shown sufficient (`ptreeF_no_out`).
Rust panics (the `.unwrap()` on `str::parse::<usize>` in `ptoken`, which
fails on overflow) are modelled by the dedicated result constructor
`PRes.panic`.  `usize` is taken to be 64 bits wide.
-/

/-- ASCII digit test, the `is_digit` predicate of nom (digit byte codes 48 to 57). -/
def isDigitB (c : Nat) : Bool := 48 ≤ c && c ≤ 57

/-- Value of usize::MAX on a 64-bit target. -/
def usizeMax : Nat := 2 ^ 64 - 1

/-- Value of a most-significant-first ASCII digit string, as
`str::parse::<usize>` computes it (without the overflow check;
the overflow check is performed at the call site in `ptokenF`). -/
def natOfDigits (l : List Nat) : Nat :=
  l.foldl (fun acc d => acc * 10 + (d - 48)) 0

/-- Auxiliary for `natRepr`: decimal ASCII digits of `n`,
most significant first, `[]` for `0`; `fuel ≥ n` makes it total. -/
def natReprAux : Nat → Nat → List Nat
  | 0, _ => []
  | fuel + 1, n =>
    if n = 0 then [] else natReprAux fuel (n / 10) ++ [n % 10 + 48]

/-- Decimal ASCII representation of `n`, as `usize::to_string` in Rust:
no leading zeros, `"0"` for zero. -/
def natRepr (n : Nat) : List Nat :=
  if n = 0 then [48] else natReprAux n n

/-- The bytes of the fixed field name `GPG_COMMENT_FIELD = b"comment"`. -/
def commentBytes : List Nat := [99, 111, 109, 109, 101, 110, 116]

/-- The `TokenTree` type of src/keyfile.rs: a node holding an ordered list
of children, or a leaf holding an opaque byte string. -/
inductive TokenTree where
  | Node : List TokenTree → TokenTree
  | Leaf : List Nat → TokenTree

/-- nom error kinds produced by the combinators this parser uses:
`tag`, `take_while1` and `take` (the latter reports `Eof`). -/
inductive ErrKind where
  | tag
  | takeWhile1
  | eof
deriving DecidableEq

/-- Result of a nom-style parser over a byte list: success with remaining
input, a structured `nom::Err::Error`, a Rust panic, or fuel exhaustion
(`out`, an artifact of the fuel embedding shown unreachable for
`fuelFor`-sized fuel). -/
inductive PRes (α : Type) where
  | ok : List Nat → α → PRes α
  | err : ErrKind → PRes α
  | panic : PRes α
  | out : PRes α

/-- Result of `deserialize`: `Ok(tree)`, a structured `anyhow` error
(carrying the nom error), or a Rust panic. -/
inductive DRes where
  | ok : TokenTree → DRes
  | err : ErrKind → DRes
  | panic : DRes

/-- Model of `ptoken` in src/keyfile.rs: `take_while1(is_digit)`, then
`str::parse::<usize>().unwrap()` (a panic on overflow), then `tag(b":")`,
then `take(size)`. -/
def ptokenF (input : List Nat) : PRes (List Nat) :=
  let run := input.takeWhile isDigitB
  if run.length = 0 then .err .takeWhile1
  else
    let n := natOfDigits run
    if usizeMax < n then .panic
    else
      match input.dropWhile isDigitB with
      | c :: rest =>
        if c = 58 then
          if n ≤ rest.length then .ok (rest.drop n) (rest.take n)
          else .err .eof
        else .err .tag
      | [] => .err .tag

/-- Model of `pleaf` in src/keyfile.rs: a token wrapped as a `Leaf`. -/
def pleafF (input : List Nat) : PRes TokenTree :=
  match ptokenF input with
  | .ok rest bs => .ok rest (.Leaf bs)
  | .err e => .err e
  | .panic => .panic
  | .out => .out

/-- Tail of the `pnode` branch of `ptree` (src/keyfile.rs): given the
outcome of the child-collection loop and the original input, require the
closing `)` (`tag(b")")`), and on a recoverable error fall back — as
`alt((pnode, pleaf))` does — to `pleaf` on the original input. -/
def pnodeClose : PRes (List TokenTree) → List Nat → PRes TokenTree
  | .ok (c2 :: r2) cs, input =>
    if c2 = 41 then .ok r2 (.Node cs) else pleafF input
  | .ok [] _, input => pleafF input
  | .err e, _ => .err e
  | .panic, _ => .panic
  | .out, _ => .out

/-- One `cons` step of the nom iterator collection: prepend the parsed
child to the outcome of the rest of the loop. -/
def pchildCons : TokenTree → PRes (List TokenTree) → PRes (List TokenTree)
  | t, .ok r1 cs => .ok r1 (t :: cs)
  | _, .err e => .err e
  | _, .panic => .panic
  | _, .out => .out

mutual
/-- Model of `ptree` in src/keyfile.rs: `alt((pnode, pleaf))`.  On `(`
(`tag(b"(")`) parse children with the nom iterator and close the node
(`pnodeClose`); otherwise — or when the node branch fails with a
recoverable error — `pleaf` on the same input, exactly as `alt` does. -/
def ptreeF : Nat → List Nat → PRes TokenTree
  | 0, _ => .out
  | f + 1, input =>
    match input with
    | c :: rest =>
      if c = 40 then pnodeClose (pchildrenF f rest) input else pleafF input
    | [] => pleafF input

/-- The nom `iterator(input, ptree)`/`collect`/`finish` loop of `pnode`:
collects children while `ptree` succeeds and stops — restoring the
position before the failed attempt — on the first recoverable error. -/
def pchildrenF : Nat → List Nat → PRes (List TokenTree)
  | 0, _ => .out
  | f + 1, input =>
    match ptreeF f input with
    | .ok rest t => pchildCons t (pchildrenF f rest)
    | .err _ => .ok input []
    | .panic => .panic
    | .out => .out
end

/-- Fuel that `ptreeF_no_out` proves sufficient for any input. -/
def fuelFor (input : List Nat) : Nat := 2 * input.length + 4

/-- Model of `deserialize` in src/keyfile.rs: run `ptree`, drop the remaining input
on success, surface `nom::Err::Error`/`Failure` as an error.  The `out`
case is unreachable for this fuel (`ptreeF_no_out`); it is mapped to
`panic`, matching the `unreachable!()` arm of the Rust code. -/
def deserialize (input : List Nat) : DRes :=
  match ptreeF (fuelFor input) input with
  | .ok _ t => .ok t
  | .err e => .err e
  | .panic => .panic
  | .out => .panic

mutual
/-- Model of `serialize` in src/keyfile.rs, with the sink taken to be an in-memory
byte buffer (a `Vec<u8>` sink never fails, so the `io::Result` is always
`Ok` and the function is modelled as the bytes written):
a leaf is its length in decimal, `:`, then the raw bytes; a node is `(`,
the children in order with no separators, `)`. -/
def serializeBytes : TokenTree → List Nat
  | .Leaf bs => natRepr bs.length ++ 58 :: bs
  | .Node cs => 40 :: serializeList cs ++ [41]

/-- The children loop of `serialize`: each child in order, concatenated. -/
def serializeList : List TokenTree → List Nat
  | [] => []
  | c :: cs => serializeBytes c ++ serializeList cs
end

mutual
/-- Every leaf byte string of the tree has length at most `usize::MAX`.
In Rust this is automatic (slice lengths are `usize`); in the embedding it
is the side condition under which leaf lengths survive the parse. -/
def leavesOk : TokenTree → Bool
  | .Leaf bs => bs.length ≤ usizeMax
  | .Node cs => leavesOkList cs

def leavesOkList : List TokenTree → Bool
  | [] => true
  | c :: cs => leavesOk c && leavesOkList cs
end

/-- Every suffix of the input has a leading digit run whose value fits in
`usize`: the condition under which the parser never reaches the overflow
panic of `ptokenF`. -/
def safeInput : List Nat → Bool
  | [] => true
  | c :: t =>
    (natOfDigits ((c :: t).takeWhile isDigitB) ≤ usizeMax) && safeInput t

/-- Does `deserialize` report a structured error (as opposed to success or
a panic)? -/
def isStructuredErr : DRes → Bool
  | .err _ => true
  | _ => false

/-- The child pattern both scans of src/main.rs look for: a `Node` whose
first element is `Leaf(b"comment")` (`xs.get(0) == Some(&Leaf(GPG_COMMENT_FIELD))`). -/
def isCommentNode : TokenTree → Bool
  | .Node (.Leaf bs :: _) => decide (bs = commentBytes)
  | _ => false

/-- The scan loop of `get_comment` (src/main.rs): first child that is a
`Node` whose first element is `Leaf(b"comment")` decides the result — its
second element if that is a `Leaf`, otherwise `None` immediately. -/
def getCommentScan : List TokenTree → Option (List Nat)
  | [] => none
  | .Node (.Leaf bs :: xsTail) :: rest =>
    if bs = commentBytes then
      match xsTail with
      | .Leaf v :: _ => some v
      | _ => none
    else getCommentScan rest
  | _ :: rest => getCommentScan rest

/-- Model of `get_comment` in src/main.rs, returning the matched value bytes.
(The Rust code additionally decodes the bytes with the lossy UTF-8
decoder before returning them as a `String`; the bytes themselves are
what the scan produces.)  A `Leaf` yields `None`; a `Node` is scanned
from its second child on (`iter().skip(1)`). -/
def get_comment : TokenTree → Option (List Nat)
  | .Node children => getCommentScan (children.drop 1)
  | .Leaf _ => none

/-- The scan-and-replace loop of `upsert_comment` (src/main.rs): the first
child that is a `Node` whose first element is `Leaf(b"comment")` has its
whole content replaced by `[Leaf(b"comment"), Leaf(value)]`; with no
match, a fresh such node is pushed at the end. -/
def upsertScan (v : List Nat) : List TokenTree → List TokenTree
  | [] => [.Node [.Leaf commentBytes, .Leaf v]]
  | .Node (.Leaf bs :: xsTail) :: rest =>
    if bs = commentBytes then .Node [.Leaf commentBytes, .Leaf v] :: rest
    else .Node (.Leaf bs :: xsTail) :: upsertScan v rest
  | c :: rest => c :: upsertScan v rest

/-- Model of `upsert_comment` in src/main.rs (the in-place mutation modelled as
returning the updated tree; the value is the byte string of the `&str`
argument).  A `Leaf` target is returned unchanged (the early `return`). -/
def upsert_comment : TokenTree → List Nat → TokenTree
  | .Node children, v => .Node (upsertScan v children)
  | .Leaf bs, _ => .Leaf bs

/-- Proposition that `ptreeF` parses all of `W` to exactly `T`, consuming every byte. -/
def parsesFullyTo (W : List Nat) (T : TokenTree) : Prop :=
  ptreeF (fuelFor W) W = .ok [] T

example : deserialize [49, 50, 58, 102, 111, 111, 98, 97, 114, 98, 97, 122,
    98, 105, 122, 113, 117, 120] =
    .ok (.Leaf [102, 111, 111, 98, 97, 114, 98, 97, 122, 98, 105, 122]) := rfl

example : deserialize [40, 54, 58, 102, 111, 111, 98, 97, 114, 41] =
    .ok (.Node [.Leaf [102, 111, 111, 98, 97, 114]]) := rfl

example : serializeBytes (.Node []) = [40, 41] := rfl

example : deserialize [40, 41] = .ok (.Node []) := rfl

/-! ### Generic list and decimal-representation lemmas -/

theorem take_append_of_le {α : Type} (n : Nat) (l s : List α) (h : n ≤ l.length) :
    (l ++ s).take n = l.take n := by
  induction l generalizing n with
  | nil => simp at h; simp [h]
  | cons a t ih =>
    cases n with
    | zero => simp
    | succ m => simp only [List.cons_append, List.take_succ_cons]
                exact congrArg _ (ih m (Nat.le_of_succ_le_succ h))

theorem drop_append_of_le {α : Type} (n : Nat) (l s : List α) (h : n ≤ l.length) :
    (l ++ s).drop n = l.drop n ++ s := by
  induction l generalizing n with
  | nil => simp at h; simp [h]
  | cons a t ih =>
    cases n with
    | zero => simp
    | succ m => simpa using ih m (Nat.le_of_succ_le_succ h)

theorem takeWhile_all_append (p : Nat → Bool) (l1 l2 : List Nat) (x : Nat)
    (h1 : ∀ a ∈ l1, p a = true) (h2 : p x = false) :
    (l1 ++ x :: l2).takeWhile p = l1 := by
  rw [List.takeWhile_append_of_pos h1, List.takeWhile_cons, h2]
  simp

theorem dropWhile_all_append (p : Nat → Bool) (l1 l2 : List Nat) (x : Nat)
    (h1 : ∀ a ∈ l1, p a = true) (h2 : p x = false) :
    (l1 ++ x :: l2).dropWhile p = x :: l2 := by
  rw [List.dropWhile_append_of_pos h1, List.dropWhile_cons, h2]
  simp

theorem natReprAux_digits (fuel : Nat) :
    ∀ n d, d ∈ natReprAux fuel n → isDigitB d = true := by
  induction fuel with
  | zero => intro n d h; simp [natReprAux] at h
  | succ f ih =>
    intro n d h
    by_cases h0 : n = 0
    · simp [natReprAux, h0] at h
    · simp only [natReprAux, if_neg h0, List.mem_append, List.mem_singleton] at h
      rcases h with h | h
      · exact ih _ _ h
      · subst h
        have : n % 10 < 10 := Nat.mod_lt _ (by decide)
        simp [isDigitB]
        omega

theorem natReprAux_val (fuel : Nat) :
    ∀ n acc, n ≤ fuel →
      List.foldl (fun acc d => acc * 10 + (d - 48)) acc (natReprAux fuel n) =
        acc * 10 ^ (natReprAux fuel n).length + n := by
  induction fuel with
  | zero => intro n acc h
            interval_cases n
            simp [natReprAux]
  | succ f ih =>
    intro n acc h
    by_cases h0 : n = 0
    · simp [natReprAux, h0]
    · have hdiv : n / 10 ≤ f := by
        have : n / 10 < n := Nat.div_lt_self (Nat.pos_of_ne_zero h0) (by decide)
        omega
      simp only [natReprAux, if_neg h0, List.foldl_append, List.length_append,
        List.foldl_cons, List.foldl_nil, List.length_cons, List.length_nil]
      rw [ih _ acc hdiv]
      have hmod : n % 10 + 48 - 48 = n % 10 := by omega
      rw [hmod]
      have : (acc * 10 ^ (natReprAux f (n / 10)).length + n / 10) * 10 + n % 10 =
          acc * (10 ^ (natReprAux f (n / 10)).length * 10) + (10 * (n / 10) + n % 10) := by
        ring
      rw [this, Nat.div_add_mod]
      ring_nf

theorem natRepr_digits (n : Nat) : ∀ d ∈ natRepr n, isDigitB d = true := by
  intro d h
  by_cases h0 : n = 0
  · simp [natRepr, h0] at h
    subst h; decide
  · simp only [natRepr, if_neg h0] at h
    exact natReprAux_digits n n d h

theorem natRepr_ne_nil (n : Nat) : natRepr n ≠ [] := by
  by_cases h0 : n = 0
  · simp [natRepr, h0]
  · simp only [natRepr, if_neg h0]
    intro hc
    have := natReprAux_val n n 0 (Nat.le_refl n)
    rw [hc] at this
    simp at this
    exact h0 this.symm

theorem natOfDigits_natRepr (n : Nat) : natOfDigits (natRepr n) = n := by
  by_cases h0 : n = 0
  · simp [natRepr, natOfDigits, h0]
  · simp only [natRepr, natOfDigits, if_neg h0]
    have := natReprAux_val n n 0 (Nat.le_refl n)
    simpa using this

theorem isDigitB_58 : isDigitB 58 = false := by decide

theorem isDigitB_ne_40 (c : Nat) (h : isDigitB c = true) : c ≠ 40 := by
  simp [isDigitB] at h
  omega

theorem isDigitB_ne_41 (c : Nat) (h : isDigitB c = true) : c ≠ 41 := by
  simp [isDigitB] at h
  omega

/-- Structural induction principle for the nested inductive `TokenTree`:
children of a node may be handled through list membership. -/
theorem TokenTree.inductionOn (P : TokenTree → Prop)
    (hleaf : ∀ bs, P (.Leaf bs))
    (hnode : ∀ cs, (∀ c ∈ cs, P c) → P (.Node cs)) : ∀ t, P t := by
  intro t
  refine @TokenTree.rec P (fun l => ∀ c ∈ l, P c) (fun cs ih => hnode cs ih) hleaf ?_ ?_ t
  · intro c hc; cases hc
  · intro h tl ph ptl c hc
    cases hc with
    | head => exact ph
    | tail _ h2 => exact ptl c h2

/-! ### Lemmas about the token parser -/

theorem safeInput_tail (c : Nat) (t : List Nat) (h : safeInput (c :: t) = true) :
    safeInput t = true := by
  simp only [safeInput, Bool.and_eq_true] at h
  exact h.2

theorem safeInput_head (c : Nat) (t : List Nat) (h : safeInput (c :: t) = true) :
    natOfDigits ((c :: t).takeWhile isDigitB) ≤ usizeMax := by
  simp only [safeInput, Bool.and_eq_true, decide_eq_true_eq] at h
  exact h.1

theorem safeInput_suffix (s l : List Nat) (hs : s <:+ l) (h : safeInput l = true) :
    safeInput s = true := by
  induction l with
  | nil => rw [List.suffix_nil] at hs; subst hs; exact h
  | cons c t ih =>
    rcases List.suffix_cons_iff.mp hs with h1 | h1
    · subst h1; exact h
    · exact ih h1 (safeInput_tail c t h)

theorem safeInput_leading (l : List Nat) (h : safeInput l = true) :
    natOfDigits (l.takeWhile isDigitB) ≤ usizeMax := by
  cases l with
  | nil => simp [natOfDigits]
  | cons c t => exact safeInput_head c t h

theorem ptokenF_ok_inv (input rest tok : List Nat) (h : ptokenF input = .ok rest tok) :
    ∃ run r, input = run ++ 58 :: r ∧ run ≠ [] ∧ (∀ a ∈ run, isDigitB a = true) ∧
      natOfDigits run ≤ usizeMax ∧ natOfDigits run ≤ r.length ∧
      rest = r.drop (natOfDigits run) ∧ tok = r.take (natOfDigits run) ∧
      input.takeWhile isDigitB = run := by
  by_cases h1 : (input.takeWhile isDigitB).length = 0
  · simp [ptokenF, h1] at h
  · by_cases h2 : usizeMax < natOfDigits (input.takeWhile isDigitB)
    · simp [ptokenF, h1, h2] at h
    · cases hdw : input.dropWhile isDigitB with
      | nil => simp [ptokenF, h1, h2, hdw] at h
      | cons c r =>
        by_cases h3 : c = 58
        · by_cases h4 : natOfDigits (input.takeWhile isDigitB) ≤ r.length
          · simp only [ptokenF, if_neg h1, if_neg h2, hdw, if_pos h3, if_pos h4] at h
            subst h3
            refine ⟨input.takeWhile isDigitB, r, ?_, ?_, ?_, ?_, h4, ?_, ?_, rfl⟩
            · conv_lhs => rw [← List.takeWhile_append_dropWhile (p := isDigitB) (l := input)]
              rw [hdw]
            · intro hc; rw [hc] at h1; simp at h1
            · intro a ha; exact List.mem_takeWhile_imp ha
            · omega
            · cases h; rfl
            · cases h; rfl
          · simp [ptokenF, h1, h2, hdw, h3, h4] at h
        · simp [ptokenF, h1, h2, hdw, h3] at h

theorem ptokenF_ne_out (input : List Nat) : ptokenF input ≠ .out := by
  by_cases h1 : (input.takeWhile isDigitB).length = 0
  · simp [ptokenF, h1]
  · by_cases h2 : usizeMax < natOfDigits (input.takeWhile isDigitB)
    · simp [ptokenF, h1, h2]
    · cases hdw : input.dropWhile isDigitB with
      | nil => simp [ptokenF, h1, h2, hdw]
      | cons c r =>
        by_cases h3 : c = 58
        · by_cases h4 : natOfDigits (input.takeWhile isDigitB) ≤ r.length
          · simp [ptokenF, h1, h2, hdw, h3, h4]
          · simp [ptokenF, h1, h2, hdw, h3, h4]
        · simp [ptokenF, h1, h2, hdw, h3]

theorem ptokenF_no_panic (input : List Nat)
    (h : natOfDigits (input.takeWhile isDigitB) ≤ usizeMax) :
    ptokenF input ≠ .panic := by
  by_cases h1 : (input.takeWhile isDigitB).length = 0
  · simp [ptokenF, h1]
  · have h2 : ¬ usizeMax < natOfDigits (input.takeWhile isDigitB) := by omega
    cases hdw : input.dropWhile isDigitB with
    | nil => simp [ptokenF, h1, h2, hdw]
    | cons c r =>
      by_cases h3 : c = 58
      · by_cases h4 : natOfDigits (input.takeWhile isDigitB) ≤ r.length
        · simp [ptokenF, h1, h2, hdw, h3, h4]
        · simp [ptokenF, h1, h2, hdw, h3, h4]
      · simp [ptokenF, h1, h2, hdw, h3]

theorem pleafF_ok_inv (input rest : List Nat) (t : TokenTree)
    (h : pleafF input = .ok rest t) :
    ∃ tok, ptokenF input = .ok rest tok ∧ t = .Leaf tok := by
  unfold pleafF at h
  cases htk : ptokenF input with
  | ok r bs => rw [htk] at h; cases h; exact ⟨bs, rfl, rfl⟩
  | err e => rw [htk] at h; cases h
  | panic => rw [htk] at h; cases h
  | out => rw [htk] at h; cases h

theorem pleafF_ok_consume (input rest : List Nat) (t : TokenTree)
    (h : pleafF input = .ok rest t) :
    rest.length + 2 ≤ input.length ∧ rest <:+ input := by
  obtain ⟨tok, htk, -⟩ := pleafF_ok_inv input rest t h
  obtain ⟨run, r, hin, hne, -, -, hlen, hrest, -, -⟩ := ptokenF_ok_inv input rest tok htk
  subst hin hrest
  constructor
  · have h1 : 1 ≤ run.length := by
      cases run with
      | nil => exact absurd rfl hne
      | cons a b => simp
    have h2 : (r.drop (natOfDigits run)).length ≤ r.length := by
      simp [List.length_drop]
    simp only [List.length_append, List.length_cons]
    omega
  · exact (List.drop_suffix _ _).trans ((List.suffix_cons 58 r).trans (List.suffix_append _ _))

theorem pleafF_not_digit_head (c : Nat) (r : List Nat) (h : isDigitB c = false) :
    pleafF (c :: r) = .err .takeWhile1 := by
  have : (c :: r).takeWhile isDigitB = [] := by
    rw [List.takeWhile_cons, h]
    simp
  simp [pleafF, ptokenF, this]

theorem pleafF_nil : pleafF [] = .err .takeWhile1 := rfl

theorem pleafF_ne_out (input : List Nat) : pleafF input ≠ .out := by
  unfold pleafF
  cases htk : ptokenF input with
  | ok r bs => simp
  | err e => simp
  | panic => simp
  | out => exact absurd htk (ptokenF_ne_out input)

theorem pleafF_no_panic (input : List Nat)
    (h : natOfDigits (input.takeWhile isDigitB) ≤ usizeMax) :
    pleafF input ≠ .panic := by
  unfold pleafF
  cases htk : ptokenF input with
  | ok r bs => simp
  | err e => simp
  | panic => exact absurd htk (ptokenF_no_panic input h)
  | out => simp

theorem parse_consume : ∀ f : Nat,
    (∀ input rest t, ptreeF f input = .ok rest t →
      rest.length + 2 ≤ input.length ∧ rest <:+ input) ∧
    (∀ input rest cs, pchildrenF f input = .ok rest cs →
      rest.length ≤ input.length ∧ rest <:+ input) := by
  intro f
  induction f with
  | zero =>
    constructor
    · intro input rest t h; simp [ptreeF] at h
    · intro input rest cs h; simp [pchildrenF] at h
  | succ f ih =>
    obtain ⟨ihT, ihC⟩ := ih
    constructor
    · intro input rest t h
      cases input with
      | nil =>
        simp only [ptreeF] at h
        rw [pleafF_nil] at h; cases h
      | cons c r =>
        simp only [ptreeF] at h
        by_cases hc : c = 40
        · rw [if_pos hc] at h
          cases hch : pchildrenF f r with
          | ok r1 cs =>
            rw [hch] at h
            cases r1 with
            | nil =>
              simp only [pnodeClose] at h
              have := pleafF_not_digit_head c r (by subst hc; decide)
              rw [this] at h; cases h
            | cons c2 r2 =>
              simp only [pnodeClose] at h
              by_cases hc2 : c2 = 41
              · rw [if_pos hc2] at h
                injection h with h1 h2
                subst h1
                subst h2
                obtain ⟨hlen, hsuf⟩ := ihC r (c2 :: r2) cs hch
                constructor
                · simp only [List.length_cons] at hlen ⊢
                  omega
                · exact ((List.suffix_cons c2 r2).trans hsuf).trans (List.suffix_cons c r)
              · rw [if_neg hc2] at h
                have := pleafF_not_digit_head c r (by subst hc; decide)
                rw [this] at h; cases h
          | err e => rw [hch] at h; simp only [pnodeClose] at h; cases h
          | panic => rw [hch] at h; simp only [pnodeClose] at h; cases h
          | out => rw [hch] at h; simp only [pnodeClose] at h; cases h
        · rw [if_neg hc] at h
          exact pleafF_ok_consume _ _ _ h
    · intro input rest cs h
      simp only [pchildrenF] at h
      cases htr : ptreeF f input with
      | ok r1 t =>
        simp only [htr] at h
        cases hch : pchildrenF f r1 with
        | ok r2 cs2 =>
          rw [hch] at h
          simp only [pchildCons] at h
          injection h with h1 h2
          subst h1
          obtain ⟨hlen1, hsuf1⟩ := ihT input r1 t htr
          obtain ⟨hlen2, hsuf2⟩ := ihC r1 r2 cs2 hch
          exact ⟨by omega, hsuf2.trans hsuf1⟩
        | err e => rw [hch] at h; simp only [pchildCons] at h; cases h
        | panic => rw [hch] at h; simp only [pchildCons] at h; cases h
        | out => rw [hch] at h; simp only [pchildCons] at h; cases h
      | err e =>
        simp only [htr] at h
        cases h
        exact ⟨Nat.le_refl _, List.suffix_refl _⟩
      | panic => simp only [htr] at h; cases h
      | out => simp only [htr] at h; cases h

theorem ptreeF_consume (f : Nat) (input rest : List Nat) (t : TokenTree)
    (h : ptreeF f input = .ok rest t) :
    rest.length + 2 ≤ input.length ∧ rest <:+ input :=
  (parse_consume f).1 input rest t h

theorem pchildrenF_consume (f : Nat) (input rest : List Nat) (cs : List TokenTree)
    (h : pchildrenF f input = .ok rest cs) :
    rest.length ≤ input.length ∧ rest <:+ input :=
  (parse_consume f).2 input rest cs h

theorem parse_no_out : ∀ f : Nat,
    (∀ input, 2 * input.length + 1 ≤ f → ptreeF f input ≠ .out) ∧
    (∀ input, 2 * input.length + 2 ≤ f → pchildrenF f input ≠ .out) := by
  intro f
  induction f with
  | zero =>
    constructor <;> intro input hle <;> omega
  | succ f ih =>
    obtain ⟨ihT, ihC⟩ := ih
    constructor
    · intro input hle
      cases input with
      | nil => simp only [ptreeF]; exact pleafF_ne_out []
      | cons c r =>
        simp only [ptreeF]
        by_cases hc : c = 40
        · rw [if_pos hc]
          cases hch : pchildrenF f r with
          | ok r1 cs =>
            cases r1 with
            | nil => simp only [pnodeClose]; exact pleafF_ne_out _
            | cons c2 r2 =>
              simp only [pnodeClose]
              by_cases hc2 : c2 = 41
              · rw [if_pos hc2]; simp
              · rw [if_neg hc2]; exact pleafF_ne_out _
          | err e => simp [pnodeClose]
          | panic => simp [pnodeClose]
          | out =>
            exfalso
            refine ihC r ?_ hch
            simp only [List.length_cons] at hle
            omega
        · rw [if_neg hc]; exact pleafF_ne_out _
    · intro input hle
      simp only [pchildrenF]
      cases htr : ptreeF f input with
      | ok rest t =>
        cases hch : pchildrenF f rest with
        | ok r1 cs =>
          show pchildCons t (pchildrenF f rest) ≠ PRes.out
          rw [hch]; simp [pchildCons]
        | err e =>
          show pchildCons t (pchildrenF f rest) ≠ PRes.out
          rw [hch]; simp [pchildCons]
        | panic =>
          show pchildCons t (pchildrenF f rest) ≠ PRes.out
          rw [hch]; simp [pchildCons]
        | out =>
          exfalso
          refine ihC rest ?_ hch
          obtain ⟨hlen, -⟩ := ptreeF_consume f input rest t htr
          omega
      | err e => simp
      | panic => simp
      | out =>
        exfalso
        exact ihT input (by omega) htr

theorem parse_mono_step : ∀ f : Nat,
    (∀ input, ptreeF f input ≠ .out → ptreeF (f + 1) input = ptreeF f input) ∧
    (∀ input, pchildrenF f input ≠ .out → pchildrenF (f + 1) input = pchildrenF f input) := by
  intro f
  induction f with
  | zero =>
    constructor <;> intro input h
    · exact absurd rfl h
    · exact absurd rfl h
  | succ f ih =>
    obtain ⟨ihT, ihC⟩ := ih
    constructor
    · intro input h
      cases input with
      | nil => simp only [ptreeF]
      | cons c r =>
        by_cases hc : c = 40
        · simp only [ptreeF, if_pos hc] at h ⊢
          have hne : pchildrenF f r ≠ .out := by
            intro hx
            rw [hx] at h
            exact h rfl
          rw [ihC r hne]
        · simp only [ptreeF, if_neg hc]
    · intro input h
      simp only [pchildrenF] at h ⊢
      cases htr : ptreeF f input with
      | ok rest t =>
        have hne : ptreeF f input ≠ .out := by rw [htr]; simp
        rw [ihT input hne, htr]
        rw [htr] at h
        simp only [] at h
        have hne2 : pchildrenF f rest ≠ .out := by
          intro hx
          rw [hx] at h
          exact h rfl
        show pchildCons t (pchildrenF (f + 1) rest) = pchildCons t (pchildrenF f rest)
        rw [ihC rest hne2]
      | err e =>
        have hne : ptreeF f input ≠ .out := by rw [htr]; simp
        rw [ihT input hne, htr]
      | panic =>
        have hne : ptreeF f input ≠ .out := by rw [htr]; simp
        rw [ihT input hne, htr]
      | out =>
        exfalso
        rw [htr] at h
        exact h rfl

theorem ptreeF_mono (f g : Nat) (input : List Nat) (hfg : f ≤ g)
    (h : ptreeF f input ≠ .out) : ptreeF g input = ptreeF f input := by
  induction g with
  | zero =>
    have h0 : f = 0 := Nat.le_zero.mp hfg
    subst h0; rfl
  | succ g ih =>
    rcases Nat.lt_or_ge f (g + 1) with hlt | hge
    · have hfg2 : f ≤ g := Nat.lt_succ_iff.mp hlt
      have heq := ih hfg2
      have step := (parse_mono_step g).1 input (by rw [heq]; exact h)
      rw [step, heq]
    · have hfe : f = g + 1 := Nat.le_antisymm hfg hge
      subst hfe; rfl

theorem pchildrenF_mono (f g : Nat) (input : List Nat) (hfg : f ≤ g)
    (h : pchildrenF f input ≠ .out) : pchildrenF g input = pchildrenF f input := by
  induction g with
  | zero =>
    have h0 : f = 0 := Nat.le_zero.mp hfg
    subst h0; rfl
  | succ g ih =>
    rcases Nat.lt_or_ge f (g + 1) with hlt | hge
    · have hfg2 : f ≤ g := Nat.lt_succ_iff.mp hlt
      have heq := ih hfg2
      have step := (parse_mono_step g).2 input (by rw [heq]; exact h)
      rw [step, heq]
    · have hfe : f = g + 1 := Nat.le_antisymm hfg hge
      subst hfe; rfl

theorem parse_no_panic : ∀ f : Nat,
    (∀ input, safeInput input = true → ptreeF f input ≠ .panic) ∧
    (∀ input, safeInput input = true → pchildrenF f input ≠ .panic) := by
  intro f
  induction f with
  | zero =>
    constructor <;> intro input hs <;> simp [ptreeF, pchildrenF]
  | succ f ih =>
    obtain ⟨ihT, ihC⟩ := ih
    constructor
    · intro input hs
      cases input with
      | nil => simp only [ptreeF]; rw [pleafF_nil]; simp
      | cons c r =>
        simp only [ptreeF]
        by_cases hc : c = 40
        · rw [if_pos hc]
          cases hch : pchildrenF f r with
          | ok r1 cs =>
            cases r1 with
            | nil =>
              simp only [pnodeClose]
              rw [pleafF_not_digit_head c r (by subst hc; decide)]
              simp
            | cons c2 r2 =>
              simp only [pnodeClose]
              by_cases hc2 : c2 = 41
              · rw [if_pos hc2]; simp
              · rw [if_neg hc2]
                rw [pleafF_not_digit_head c r (by subst hc; decide)]
                simp
          | err e => simp [pnodeClose]
          | panic => exact absurd hch (ihC r (safeInput_tail c r hs))
          | out => simp [pnodeClose]
        · rw [if_neg hc]
          exact pleafF_no_panic _ (safeInput_leading _ hs)
    · intro input hs
      simp only [pchildrenF]
      cases htr : ptreeF f input with
      | ok rest t =>
        cases hch : pchildrenF f rest with
        | ok r1 cs =>
          show pchildCons t (pchildrenF f rest) ≠ PRes.panic
          rw [hch]; simp [pchildCons]
        | err e =>
          show pchildCons t (pchildrenF f rest) ≠ PRes.panic
          rw [hch]; simp [pchildCons]
        | panic =>
          exfalso
          obtain ⟨-, hsuf⟩ := ptreeF_consume f input rest t htr
          exact ihC rest (safeInput_suffix rest input hsuf hs) hch
        | out =>
          show pchildCons t (pchildrenF f rest) ≠ PRes.panic
          rw [hch]; simp [pchildCons]
      | err e => simp
      | panic => exact absurd htr (ihT input hs)
      | out => simp

theorem pchildrenF_ne_err : ∀ f input e, pchildrenF f input ≠ .err e := by
  intro f
  induction f with
  | zero => intro input e h; simp [pchildrenF] at h
  | succ f ih =>
    intro input e h
    simp only [pchildrenF] at h
    cases htr : ptreeF f input with
    | ok rest t =>
      rw [htr] at h
      simp only [] at h
      cases hch : pchildrenF f rest with
      | ok r1 cs => rw [hch] at h; simp [pchildCons] at h
      | err e2 => exact ih rest e2 hch
      | panic => rw [hch] at h; simp [pchildCons] at h
      | out => rw [hch] at h; simp [pchildCons] at h
    | err e2 => rw [htr] at h; simp at h
    | panic => rw [htr] at h; simp at h
    | out => rw [htr] at h; simp at h

theorem ptokenF_ext (input rest tok s : List Nat) (h : ptokenF input = .ok rest tok) :
    ptokenF (input ++ s) = .ok (rest ++ s) tok := by
  obtain ⟨run, r, hin, hne, hdig, hmax, hlen, hrest, htok, -⟩ :=
    ptokenF_ok_inv input rest tok h
  subst hin hrest htok
  have hns : run ++ 58 :: r ++ s = run ++ 58 :: (r ++ s) := by simp
  rw [hns]
  have htw : (run ++ 58 :: (r ++ s)).takeWhile isDigitB = run :=
    takeWhile_all_append isDigitB run (r ++ s) 58 hdig isDigitB_58
  have hdw : (run ++ 58 :: (r ++ s)).dropWhile isDigitB = 58 :: (r ++ s) :=
    dropWhile_all_append isDigitB run (r ++ s) 58 hdig isDigitB_58
  have hrl : run.length ≠ 0 := by
    cases run with
    | nil => exact absurd rfl hne
    | cons a b => simp
  have hlen2 : natOfDigits run ≤ (r ++ s).length := by
    simp only [List.length_append]
    omega
  simp only [ptokenF, htw, hdw, if_neg hrl, if_neg (by omega : ¬ usizeMax < natOfDigits run),
    if_pos rfl, if_pos hlen2]
  rw [take_append_of_le _ _ _ hlen, drop_append_of_le _ _ _ hlen]
  simp

theorem pleafF_ext (input rest s : List Nat) (t : TokenTree)
    (h : pleafF input = .ok rest t) : pleafF (input ++ s) = .ok (rest ++ s) t := by
  obtain ⟨tok, htk, ht⟩ := pleafF_ok_inv input rest t h
  subst ht
  unfold pleafF
  rw [ptokenF_ext input rest tok s htk]

theorem ptreeF_rparen (f : Nat) (s : List Nat) :
    ptreeF (f + 1) (41 :: s) = .err .takeWhile1 := by
  simp only [ptreeF, if_neg (by decide : ¬ (41 : Nat) = 40)]
  exact pleafF_not_digit_head 41 s (by decide)

theorem parse_ext : ∀ f : Nat,
    (∀ input rest s t, ptreeF f input = .ok rest t →
      ptreeF f (input ++ s) = .ok (rest ++ s) t) ∧
    (∀ input rest s cs, pchildrenF f input = .ok rest cs → rest.head? = some 41 →
      pchildrenF f (input ++ s) = .ok (rest ++ s) cs) := by
  intro f
  induction f with
  | zero =>
    constructor
    · intro input rest s t h; simp [ptreeF] at h
    · intro input rest s cs h; simp [pchildrenF] at h
  | succ f ih =>
    obtain ⟨ihT, ihC⟩ := ih
    constructor
    · intro input rest s t h
      cases input with
      | nil =>
        simp only [ptreeF] at h
        rw [pleafF_nil] at h; cases h
      | cons c r =>
        simp only [ptreeF, List.cons_append] at h ⊢
        by_cases hc : c = 40
        · rw [if_pos hc] at h ⊢
          cases hch : pchildrenF f r with
          | ok r1 cs =>
            rw [hch] at h
            cases r1 with
            | nil =>
              simp only [pnodeClose] at h
              have := pleafF_not_digit_head c r (by subst hc; decide)
              rw [this] at h; cases h
            | cons c2 r2 =>
              simp only [pnodeClose] at h
              by_cases hc2 : c2 = 41
              · rw [if_pos hc2] at h
                injection h with h1 h2
                subst h1
                subst h2
                have hext := ihC r (c2 :: r2) s cs hch (by rw [hc2]; rfl)
                rw [hext]
                simp only [pnodeClose, List.cons_append]
                rw [if_pos hc2]
              · rw [if_neg hc2] at h
                have := pleafF_not_digit_head c r (by subst hc; decide)
                rw [this] at h; cases h
          | err e => rw [hch] at h; simp only [pnodeClose] at h; cases h
          | panic => rw [hch] at h; simp only [pnodeClose] at h; cases h
          | out => rw [hch] at h; simp only [pnodeClose] at h; cases h
        · rw [if_neg hc] at h ⊢
          exact pleafF_ext _ _ _ _ h
    · intro input rest s cs h hhd
      simp only [pchildrenF] at h ⊢
      cases htr : ptreeF f input with
      | ok r1 t =>
        rw [htr] at h
        simp only [pchildCons] at h
        cases hch : pchildrenF f r1 with
        | ok r2 cs2 =>
          rw [hch] at h
          simp only [] at h
          injection h with h1 h2
          subst h1
          subst h2
          rw [ihT input r1 s t htr]
          simp only [pchildCons]
          rw [ihC r1 r2 s cs2 hch hhd]
        | err e => exact absurd hch (pchildrenF_ne_err f r1 e)
        | panic => rw [hch] at h; simp only [] at h; cases h
        | out => rw [hch] at h; simp only [] at h; cases h
      | err e =>
        rw [htr] at h
        simp only [] at h
        injection h with h1 h2
        subst h1
        subst h2
        cases f with
        | zero => simp [ptreeF] at htr
        | succ f2 =>
          obtain ⟨c0, r0, hin⟩ : ∃ c0 r0, input = 41 :: r0 ∧ True := by
            cases input with
            | nil => simp at hhd
            | cons a b =>
              simp only [List.head?_cons, Option.some.injEq] at hhd
              exact ⟨a, b, by rw [hhd], trivial⟩
          obtain ⟨hin, -⟩ := hin
          subst hin
          rw [List.cons_append, ptreeF_rparen f2 (r0 ++ s)]
      | panic => rw [htr] at h; simp only [] at h; cases h
      | out => rw [htr] at h; simp only [] at h; cases h

/-! ### Round-trip of serialization and parsing -/

theorem pchildrenF_stop (f : Nat) (input : List Nat) (e : ErrKind)
    (h : ptreeF f input = .err e) : pchildrenF (f + 1) input = .ok input [] := by
  simp only [pchildrenF, h]

theorem leavesOkList_forall (cs : List TokenTree) :
    leavesOkList cs = true ↔ ∀ c ∈ cs, leavesOk c = true := by
  induction cs with
  | nil => simp [leavesOkList]
  | cons c cs ih => simp [leavesOkList, ih]

theorem ptokenF_serialize (bs s : List Nat) (h : bs.length ≤ usizeMax) :
    ptokenF (natRepr bs.length ++ 58 :: (bs ++ s)) = .ok s bs := by
  have hdig := natRepr_digits bs.length
  have htw := takeWhile_all_append isDigitB (natRepr bs.length) (bs ++ s) 58 hdig isDigitB_58
  have hdw := dropWhile_all_append isDigitB (natRepr bs.length) (bs ++ s) 58 hdig isDigitB_58
  have hrl : (natRepr bs.length).length ≠ 0 := by
    cases hnr : natRepr bs.length with
    | nil => exact absurd hnr (natRepr_ne_nil bs.length)
    | cons d ds => simp
  have hval : natOfDigits (natRepr bs.length) = bs.length := natOfDigits_natRepr _
  have hlen2 : natOfDigits (natRepr bs.length) ≤ (bs ++ s).length := by
    rw [hval]
    simp
  simp only [ptokenF, htw, hdw, if_neg hrl, hval, if_neg (not_lt.mpr h), if_true,
    if_pos (show bs.length ≤ (bs ++ s).length by simp)]
  rw [List.take_left, List.drop_left]

theorem ptreeF_serialize_leaf (bs s : List Nat) (h : bs.length ≤ usizeMax) (f : Nat) :
    ptreeF (f + 1) (serializeBytes (.Leaf bs) ++ s) = .ok s (.Leaf bs) := by
  obtain ⟨d, ds, hnr⟩ := List.exists_cons_of_ne_nil (natRepr_ne_nil bs.length)
  have hd : isDigitB d = true := natRepr_digits bs.length d (by rw [hnr]; simp)
  have htok := ptokenF_serialize bs s h
  have hshape : serializeBytes (.Leaf bs) ++ s = natRepr bs.length ++ 58 :: (bs ++ s) := by
    simp [serializeBytes]
  have hshape2 : natRepr bs.length ++ 58 :: (bs ++ s) = d :: (ds ++ 58 :: (bs ++ s)) := by
    rw [hnr]
    simp
  rw [hshape, hshape2]
  rw [hshape2] at htok
  simp only [ptreeF]
  rw [if_neg (isDigitB_ne_40 d hd)]
  unfold pleafF
  rw [htok]

theorem roundtrip_children (cs : List TokenTree)
    (ih : ∀ c ∈ cs, leavesOk c = true →
      ∀ s, ∃ f, ptreeF f (serializeBytes c ++ s) = .ok s c)
    (hok : ∀ c ∈ cs, leavesOk c = true) :
    ∀ s, ∃ f, pchildrenF f (serializeList cs ++ 41 :: s) = .ok (41 :: s) cs := by
  induction cs with
  | nil =>
    intro s
    refine ⟨0 + 1 + 1, ?_⟩
    have h41 : ptreeF (0 + 1) (41 :: s) = .err .takeWhile1 := ptreeF_rparen 0 s
    have := pchildrenF_stop (0 + 1) (41 :: s) .takeWhile1 h41
    simpa [serializeList] using this
  | cons c cs2 ihl =>
    intro s
    have ihc := ih c (by simp) (hok c (by simp))
    have ihrest := ihl (fun x hx => ih x (by simp [hx])) (fun x hx => hok x (by simp [hx]))
    obtain ⟨f1, h1⟩ := ihc (serializeList cs2 ++ 41 :: s)
    obtain ⟨f2, h2⟩ := ihrest s
    refine ⟨max f1 f2 + 1, ?_⟩
    have hshape : serializeList (c :: cs2) ++ 41 :: s =
        serializeBytes c ++ (serializeList cs2 ++ 41 :: s) := by
      simp [serializeList]
    rw [hshape]
    have h1m : ptreeF (max f1 f2) (serializeBytes c ++ (serializeList cs2 ++ 41 :: s)) =
        .ok (serializeList cs2 ++ 41 :: s) c := by
      rw [ptreeF_mono f1 (max f1 f2) _ (Nat.le_max_left f1 f2) (by rw [h1]; simp), h1]
    have h2m : pchildrenF (max f1 f2) (serializeList cs2 ++ 41 :: s) = .ok (41 :: s) cs2 := by
      rw [pchildrenF_mono f2 (max f1 f2) _ (Nat.le_max_right f1 f2) (by rw [h2]; simp), h2]
    simp only [pchildrenF, h1m]
    rw [h2m]
    simp [pchildCons]

theorem roundtrip_exists (t : TokenTree) :
    leavesOk t = true → ∀ s, ∃ f, ptreeF f (serializeBytes t ++ s) = .ok s t := by
  refine TokenTree.inductionOn
    (fun t => leavesOk t = true → ∀ s, ∃ f, ptreeF f (serializeBytes t ++ s) = .ok s t)
    ?_ ?_ t
  · intro bs h s
    have hlen : bs.length ≤ usizeMax := by simpa [leavesOk] using h
    exact ⟨1, ptreeF_serialize_leaf bs s hlen 0⟩
  · intro cs ih h s
    have hok : ∀ c ∈ cs, leavesOk c = true :=
      (leavesOkList_forall cs).mp (by simpa [leavesOk] using h)
    obtain ⟨fc, hc⟩ := roundtrip_children cs ih hok s
    refine ⟨fc + 1, ?_⟩
    have hshape : serializeBytes (.Node cs) ++ s = 40 :: (serializeList cs ++ 41 :: s) := by
      simp [serializeBytes]
    rw [hshape]
    simp only [ptreeF, if_pos (rfl : (40 : Nat) = 40)]
    rw [hc]
    simp [pnodeClose]

theorem parsesFullyTo_serialize (t : TokenTree) (h : leavesOk t = true) :
    parsesFullyTo (serializeBytes t) t := by
  obtain ⟨f0, h0⟩ := roundtrip_exists t h []
  rw [List.append_nil] at h0
  unfold parsesFullyTo
  have hno : ptreeF (fuelFor (serializeBytes t)) (serializeBytes t) ≠ .out :=
    (parse_no_out (fuelFor (serializeBytes t))).1 _ (by unfold fuelFor; omega)
  have h1 : ptreeF (max f0 (fuelFor (serializeBytes t))) (serializeBytes t) = .ok [] t := by
    rw [ptreeF_mono f0 _ _ (Nat.le_max_left _ _) (by rw [h0]; simp), h0]
  have h2 : ptreeF (max f0 (fuelFor (serializeBytes t))) (serializeBytes t) =
      ptreeF (fuelFor (serializeBytes t)) (serializeBytes t) :=
    ptreeF_mono _ _ _ (Nat.le_max_right _ _) hno
  rw [← h2, h1]

theorem deserialize_serialize (t : TokenTree) (h : leavesOk t = true) :
    deserialize (serializeBytes t) = .ok t := by
  have hfull := parsesFullyTo_serialize t h
  unfold parsesFullyTo at hfull
  unfold deserialize
  rw [hfull]

/-! ### Error behavior of the parser -/

theorem head_digit_of_takeWhile (B : List Nat) (h : B.takeWhile isDigitB ≠ []) :
    ∃ c r, B = c :: r ∧ isDigitB c = true := by
  cases B with
  | nil => simp at h
  | cons c r =>
    refine ⟨c, r, rfl, ?_⟩
    by_cases hc : isDigitB c = true
    · exact hc
    · rw [List.takeWhile_cons] at h
      simp only [Bool.not_eq_true] at hc
      rw [hc] at h
      simp at h

theorem ptokenF_err_tag (input : List Nat) (h1 : input.takeWhile isDigitB ≠ [])
    (h2 : natOfDigits (input.takeWhile isDigitB) ≤ usizeMax)
    (h3 : (input.dropWhile isDigitB).head? ≠ some 58) :
    ptokenF input = .err .tag := by
  have hrl : (input.takeWhile isDigitB).length ≠ 0 := by
    cases htw : input.takeWhile isDigitB with
    | nil => exact absurd htw h1
    | cons a b => simp
  simp only [ptokenF, if_neg hrl, if_neg (not_lt.mpr h2)]
  cases hdw : input.dropWhile isDigitB with
  | nil => simp
  | cons c2 r2 =>
    rw [hdw] at h3
    simp only [List.head?_cons, ne_eq, Option.some.injEq] at h3
    show (if c2 = 58 then _ else PRes.err ErrKind.tag) = PRes.err ErrKind.tag
    rw [if_neg h3]

theorem ptokenF_not_digit_head (c : Nat) (r : List Nat) (h : isDigitB c = false) :
    ptokenF (c :: r) = .err .takeWhile1 := by
  have htw : (c :: r).takeWhile isDigitB = [] := by
    rw [List.takeWhile_cons, h]
    simp
  simp [ptokenF, htw]

theorem deserialize_err_aux (B : List Nat) (e : ErrKind)
    (hhead : B.head? ≠ some 40) (htok : ptokenF B = .err e) :
    isStructuredErr (deserialize B) = true := by
  obtain ⟨f, hf⟩ : ∃ f, fuelFor B = f + 1 := ⟨2 * B.length + 3, by unfold fuelFor; omega⟩
  unfold deserialize
  rw [hf]
  cases B with
  | nil =>
    simp only [ptreeF]
    unfold pleafF
    rw [htok]
    rfl
  | cons c r =>
    simp only [ptreeF]
    have hc : ¬ c = 40 := by
      intro hx
      subst hx
      simp at hhead
    rw [if_neg hc]
    unfold pleafF
    rw [htok]
    rfl

theorem ptokenF_err_eof (ds content : List Nat) (hne : ds ≠ [])
    (hdig : ∀ d ∈ ds, isDigitB d = true) (hmax : natOfDigits ds ≤ usizeMax)
    (hlt : content.length < natOfDigits ds) :
    ptokenF (ds ++ 58 :: content) = .err .eof := by
  have htw := takeWhile_all_append isDigitB ds content 58 hdig isDigitB_58
  have hdw := dropWhile_all_append isDigitB ds content 58 hdig isDigitB_58
  have hrl : ds.length ≠ 0 := by
    cases ds with
    | nil => exact absurd rfl hne
    | cons a b => simp
  simp only [ptokenF, htw, hdw, if_neg hrl, if_neg (not_lt.mpr hmax), if_true,
    if_neg (not_le.mpr hlt)]

theorem deserialize_err_unterminated (rest0 : List Nat)
    (hnr : ¬ 41 ∈ (40 :: rest0)) (hsafe : safeInput (40 :: rest0) = true) :
    isStructuredErr (deserialize (40 :: rest0)) = true := by
  obtain ⟨f, hf⟩ : ∃ f, fuelFor (40 :: rest0) = f + 1 ∧ 2 * rest0.length + 2 ≤ f := by
    refine ⟨2 * (40 :: rest0).length + 3, by unfold fuelFor; omega, by simp; omega⟩
  obtain ⟨hf, hfle⟩ := hf
  unfold deserialize
  rw [hf]
  simp only [ptreeF, if_pos (rfl : (40 : Nat) = 40)]
  cases hch : pchildrenF f rest0 with
  | ok r1 cs =>
    have hsuf := (pchildrenF_consume f rest0 r1 cs hch).2
    cases r1 with
    | nil =>
      simp only [pnodeClose]
      rw [pleafF_not_digit_head 40 rest0 (by decide)]
      rfl
    | cons c2 r2 =>
      have hc2 : c2 ≠ 41 := by
        intro hx
        subst hx
        exact hnr (List.mem_cons_of_mem 40 (hsuf.subset (List.mem_cons_self 41 r2)))
      simp only [pnodeClose]
      rw [if_neg hc2, pleafF_not_digit_head 40 rest0 (by decide)]
      rfl
  | err e => exact absurd hch (pchildrenF_ne_err f rest0 e)
  | panic =>
    exact absurd hch ((parse_no_panic f).2 rest0 (safeInput_tail 40 rest0 hsafe))
  | out => exact absurd hch ((parse_no_out f).2 rest0 hfle)

/-! ### Claim theorems for the codec (C1 to C5) -/

/-- C1: for every Token Tree `T` (leaves with byte strings of `usize`
length, as in Rust, where a slice length always fits in `usize`),
serializing `T` into a byte buffer succeeds (the buffer sink is
infallible, so `serializeBytes` is total) and deserializing the buffer
returns `Ok` of a structurally equal tree. -/
theorem claim_c1_roundtrip (T : TokenTree) (h : leavesOk T = true) :
    deserialize (serializeBytes T) = .ok T :=
  deserialize_serialize T h

theorem claim_c1_roundtrip_witness :
    leavesOk (.Node [.Leaf [97, 98], .Node [], .Leaf []]) = true ∧
    deserialize (serializeBytes (.Node [.Leaf [97, 98], .Node [], .Leaf []])) =
      .ok (.Node [.Leaf [97, 98], .Node [], .Leaf []]) :=
  ⟨by decide, claim_c1_roundtrip (.Node [.Leaf [97, 98], .Node [], .Leaf []]) (by decide)⟩

/-- C2 counterexample: the byte sequence `01:x` is parsed successfully
with all input consumed, yielding `Leaf "x"`, but re-serializing that
leaf produces `1:x`, which differs from the input: the format allows a
non-canonical encoding through leading zeros in the length prefix
(consistent with the explicit grammar note of no leading-zero restriction). -/
theorem claim_c2_counterexample :
    ptreeF (fuelFor [48, 49, 58, 120]) [48, 49, 58, 120] = .ok [] (.Leaf [120]) ∧
    serializeBytes (.Leaf [120]) ≠ [48, 49, 58, 120] :=
  ⟨rfl, by decide⟩

/-- C2 (amended): byte-identical re-serialization holds for every fully
consumed input that is itself a canonical encoding — the serialization of
some tree (equivalently, every length prefix is written without leading
zeros); inputs with a leading zero in a length prefix, such as `01:x`,
parse successfully but re-serialize to different (shorter) bytes. -/
theorem claim_c2_canonical (B : List Nat)
    (h : ∃ T, leavesOk T = true ∧ serializeBytes T = B) :
    ∃ T2, ptreeF (fuelFor B) B = .ok [] T2 ∧ serializeBytes T2 = B := by
  obtain ⟨T, hok, hser⟩ := h
  subst hser
  exact ⟨T, parsesFullyTo_serialize T hok, rfl⟩

theorem claim_c2_canonical_witness :
    (∃ T, leavesOk T = true ∧ serializeBytes T = [51, 58, 97, 98, 99]) ∧
    (∃ T2, ptreeF (fuelFor [51, 58, 97, 98, 99]) [51, 58, 97, 98, 99] = .ok [] T2 ∧
      serializeBytes T2 = [51, 58, 97, 98, 99]) :=
  ⟨⟨.Leaf [97, 98, 99], by decide, rfl⟩,
    claim_c2_canonical [51, 58, 97, 98, 99] ⟨.Leaf [97, 98, 99], by decide, rfl⟩⟩

/-- C3: the claim says `deserialize` never panics and turns a length
overflow into a malformed-length error; the code instead calls
`.unwrap()` on `str::parse::<usize>`, which panics when the digit run
denotes a value above `usize::MAX`.  On the input of twenty `9` bytes
(value `10^20 - 1 > 2^64 - 1`) the model of the code reaches the panic:
the code contradicts the spec and its own fuzz target
(fuzz/fuzz_targets/deserialization.rs), which requires no crash on
arbitrary input. -/
theorem claim_c3_overflow_panics :
    usizeMax < natOfDigits ((List.replicate 20 57).takeWhile isDigitB) ∧
    deserialize (List.replicate 20 57) = .panic :=
  ⟨by decide, rfl⟩

/-- C4 counterexample: the input of twenty `9` bytes followed by `x` has
a (maximal) digit run not followed by `:`, so the claim requires a
structured error, but `deserialize` panics on it (the length-overflow
`.unwrap()` fires before the `:` separator is ever checked). -/
theorem claim_c4_counterexample :
    (List.replicate 20 57 ++ [120]).takeWhile isDigitB ≠ [] ∧
    ((List.replicate 20 57 ++ [120]).dropWhile isDigitB).head? ≠ some 58 ∧
    deserialize (List.replicate 20 57 ++ [120]) = .panic :=
  ⟨by decide, by decide, rfl⟩

/-- C4 (amended): `deserialize` returns a structured error (never `Ok`,
never a panic) whenever — provided every digit run involved denotes a
value that fits in `usize`, since otherwise the overflow panic of C3
fires first —
(a) the input has a leading digit run not followed by `:`;
(b) the input declares a leaf length larger than the number of remaining
bytes;
(c) the input opens a node with `(` that is never closed before the
input ends;
(d) the input is empty, or starts with a byte that is neither `(` nor an
ASCII digit. -/
theorem claim_c4_errors :
    (∀ B, B.takeWhile isDigitB ≠ [] →
      natOfDigits (B.takeWhile isDigitB) ≤ usizeMax →
      (B.dropWhile isDigitB).head? ≠ some 58 →
      isStructuredErr (deserialize B) = true) ∧
    (∀ ds content, ds ≠ [] → (∀ d ∈ ds, isDigitB d = true) →
      natOfDigits ds ≤ usizeMax → content.length < natOfDigits ds →
      isStructuredErr (deserialize (ds ++ 58 :: content)) = true) ∧
    (∀ B, B.head? = some 40 → ¬ 41 ∈ B → safeInput B = true →
      isStructuredErr (deserialize B) = true) ∧
    (isStructuredErr (deserialize []) = true ∧
      ∀ b B, isDigitB b = false → b ≠ 40 →
        isStructuredErr (deserialize (b :: B)) = true) := by
  refine ⟨?_, ?_, ?_, ?_, ?_⟩
  · intro B h1 h2 h3
    obtain ⟨c, r, hB, hc⟩ := head_digit_of_takeWhile B h1
    have htok := ptokenF_err_tag B h1 h2 h3
    refine deserialize_err_aux B .tag ?_ htok
    rw [hB]
    simp only [List.head?_cons, ne_eq, Option.some.injEq]
    exact isDigitB_ne_40 c hc
  · intro ds content hne hdig hmax hlt
    have htok := ptokenF_err_eof ds content hne hdig hmax hlt
    refine deserialize_err_aux (ds ++ 58 :: content) .eof ?_ htok
    cases ds with
    | nil => exact absurd rfl hne
    | cons d ds2 =>
      simp only [List.cons_append, List.head?_cons, ne_eq, Option.some.injEq]
      exact isDigitB_ne_40 d (hdig d (List.mem_cons_self d ds2))
  · intro B hhead hnr hsafe
    cases B with
    | nil => simp at hhead
    | cons c rest0 =>
      simp only [List.head?_cons, Option.some.injEq] at hhead
      subst hhead
      exact deserialize_err_unterminated rest0 hnr hsafe
  · rfl
  · intro b B hb hb40
    have htok := ptokenF_not_digit_head b B hb
    refine deserialize_err_aux (b :: B) .takeWhile1 ?_ htok
    simp only [List.head?_cons, ne_eq, Option.some.injEq]
    exact hb40

theorem claim_c4_errors_witness :
    isStructuredErr (deserialize [49, 50, 120]) = true ∧
    isStructuredErr (deserialize ([53] ++ 58 :: [97, 98, 99])) = true ∧
    isStructuredErr (deserialize [40, 51, 58, 97]) = true ∧
    isStructuredErr (deserialize []) = true ∧
    isStructuredErr (deserialize (120 :: [97])) = true :=
  ⟨claim_c4_errors.1 [49, 50, 120] (by decide) (by decide) (by decide),
   claim_c4_errors.2.1 [53] [97, 98, 99] (by decide) (by decide) (by decide) (by decide),
   claim_c4_errors.2.2.1 [40, 51, 58, 97] (by decide) (by decide) (by decide),
   claim_c4_errors.2.2.2.1,
   claim_c4_errors.2.2.2.2 120 [97] (by decide) (by decide)⟩

/-- C5: for every byte sequence of the form `W ++ R` where `W` alone
parses as one complete tree `T` (all of `W` consumed), `deserialize`
returns `Ok T` on the longer input: trailing bytes after the first
complete top-level tree are silently ignored, never an error. -/
theorem claim_c5_trailing (W R : List Nat) (T : TokenTree)
    (h : parsesFullyTo W T) : deserialize (W ++ R) = .ok T := by
  unfold parsesFullyTo at h
  have hext := (parse_ext (fuelFor W)).1 W [] R T h
  rw [List.nil_append] at hext
  have hno : ptreeF (fuelFor (W ++ R)) (W ++ R) ≠ .out :=
    (parse_no_out _).1 _ (by unfold fuelFor; omega)
  have hmax1 : ptreeF (max (fuelFor W) (fuelFor (W ++ R))) (W ++ R) = .ok R T := by
    rw [ptreeF_mono (fuelFor W) _ _ (Nat.le_max_left _ _) (by rw [hext]; simp), hext]
  have hmax2 : ptreeF (max (fuelFor W) (fuelFor (W ++ R))) (W ++ R) =
      ptreeF (fuelFor (W ++ R)) (W ++ R) :=
    ptreeF_mono _ _ _ (Nat.le_max_right _ _) hno
  unfold deserialize
  rw [← hmax2, hmax1]

theorem claim_c5_trailing_witness :
    parsesFullyTo [50, 58, 97, 98] (.Leaf [97, 98]) ∧
    deserialize ([50, 58, 97, 98] ++ [120, 121]) = .ok (.Leaf [97, 98]) :=
  ⟨rfl, claim_c5_trailing [50, 58, 97, 98] [120, 121] (.Leaf [97, 98]) rfl⟩

/-! ### Lemmas about the comment field accessor and mutator -/

theorem isCommentNode_true_iff (t : TokenTree) :
    isCommentNode t = true ↔ ∃ xsT, t = .Node (.Leaf commentBytes :: xsT) := by
  cases t with
  | Leaf bs => simp [isCommentNode]
  | Node xs =>
    cases xs with
    | nil => simp [isCommentNode]
    | cons x xsT =>
      cases x with
      | Node ys => simp [isCommentNode]
      | Leaf bs =>
        simp only [isCommentNode, decide_eq_true_eq]
        constructor
        · intro h; subst h; exact ⟨xsT, rfl⟩
        · intro ⟨ys, hy⟩
          injection hy with h1
          injection h1 with h2 h3
          injection h2

theorem getCommentScan_skip (t : TokenTree) (l : List TokenTree)
    (h : isCommentNode t = false) : getCommentScan (t :: l) = getCommentScan l := by
  cases t with
  | Leaf bs => rfl
  | Node xs =>
    cases xs with
    | nil => rfl
    | cons x xsT =>
      cases x with
      | Node ys => rfl
      | Leaf bs =>
        have hbs : ¬ bs = commentBytes := by simpa [isCommentNode] using h
        simp [getCommentScan, hbs]

theorem getCommentScan_skip_all (pre l : List TokenTree)
    (h : ∀ t ∈ pre, isCommentNode t = false) :
    getCommentScan (pre ++ l) = getCommentScan l := by
  induction pre with
  | nil => rfl
  | cons t pre ih =>
    rw [List.cons_append, getCommentScan_skip t _ (h t (List.mem_cons_self t pre))]
    exact ih (fun x hx => h x (List.mem_cons_of_mem t hx))

theorem getCommentScan_none (l : List TokenTree)
    (h : ∀ t ∈ l, isCommentNode t = false) : getCommentScan l = none := by
  have := getCommentScan_skip_all l [] h
  rw [List.append_nil] at this
  rw [this]
  rfl

theorem getCommentScan_hit (xsT rest : List TokenTree) :
    getCommentScan (.Node (.Leaf commentBytes :: xsT) :: rest) =
      (match xsT with
       | .Leaf v :: _ => some v
       | _ => none) := by
  simp [getCommentScan]

theorem upsertScan_skip (v : List Nat) (t : TokenTree) (l : List TokenTree)
    (h : isCommentNode t = false) : upsertScan v (t :: l) = t :: upsertScan v l := by
  cases t with
  | Leaf bs => rfl
  | Node xs =>
    cases xs with
    | nil => rfl
    | cons x xsT =>
      cases x with
      | Node ys => rfl
      | Leaf bs =>
        have hbs : ¬ bs = commentBytes := by simpa [isCommentNode] using h
        simp [upsertScan, hbs]

theorem upsertScan_skip_all (v : List Nat) (pre l : List TokenTree)
    (h : ∀ t ∈ pre, isCommentNode t = false) :
    upsertScan v (pre ++ l) = pre ++ upsertScan v l := by
  induction pre with
  | nil => rfl
  | cons t pre ih =>
    rw [List.cons_append, upsertScan_skip v t _ (h t (List.mem_cons_self t pre)),
      ih (fun x hx => h x (List.mem_cons_of_mem t hx))]
    rfl

theorem upsertScan_hit (v : List Nat) (xsT rest : List TokenTree) :
    upsertScan v (.Node (.Leaf commentBytes :: xsT) :: rest) =
      .Node [.Leaf commentBytes, .Leaf v] :: rest := by
  simp [upsertScan]

theorem upsertScan_append (v : List Nat) (l : List TokenTree)
    (h : ∀ t ∈ l, isCommentNode t = false) :
    upsertScan v l = l ++ [.Node [.Leaf commentBytes, .Leaf v]] := by
  have := upsertScan_skip_all v l [] h
  rw [List.append_nil] at this
  rw [this]
  rfl

theorem getCommentScan_upsertScan (cs : List TokenTree) (v : List Nat) :
    getCommentScan (upsertScan v cs) = some v := by
  induction cs with
  | nil =>
    show getCommentScan [.Node [.Leaf commentBytes, .Leaf v]] = some v
    rw [show ([.Leaf commentBytes, .Leaf v] : List TokenTree) =
      .Leaf commentBytes :: [.Leaf v] from rfl, getCommentScan_hit]
  | cons c cs ih =>
    by_cases hc : isCommentNode c = true
    · obtain ⟨xsT, hx⟩ := (isCommentNode_true_iff c).mp hc
      subst hx
      rw [upsertScan_hit]
      rw [show ([.Leaf commentBytes, .Leaf v] : List TokenTree) =
        .Leaf commentBytes :: [.Leaf v] from rfl, getCommentScan_hit]
    · have hcf : isCommentNode c = false := by
        cases hx : isCommentNode c
        · rfl
        · exact absurd hx hc
      rw [upsertScan_skip v c cs hcf, getCommentScan_skip c _ hcf]
      exact ih

/-! ### Claim theorems for the comment field accessor and mutator (C6 to C10) -/

/-- C6: `get_comment` returns `None` on every `Leaf`; on a `Node` it
scans the children in order starting from the second child (`c0`, the
first child, is never examined — it may even look like a comment field
itself), and at the first scanned child that is a `Node` whose first
element is `Leaf "comment"`, the result is decided by that candidate
alone: `Some` of the bytes of the second element when that element exists and
is a `Leaf` (the Rust code additionally decodes those bytes to a string
with the lossy UTF-8 decoder), and `None` immediately otherwise, never
scanning further; with no matching child at all the result is `None`. -/
theorem claim_c6_get_comment :
    (∀ bs, get_comment (.Leaf bs) = none) ∧
    (∀ c0 pre xsT rest, (∀ t ∈ pre, isCommentNode t = false) →
      get_comment (.Node (c0 :: (pre ++ .Node (.Leaf commentBytes :: xsT) :: rest))) =
        (match xsT with
         | .Leaf v :: _ => some v
         | _ => none)) ∧
    (∀ c0 cs, (∀ t ∈ cs, isCommentNode t = false) →
      get_comment (.Node (c0 :: cs)) = none) := by
  refine ⟨fun bs => rfl, ?_, ?_⟩
  · intro c0 pre xsT rest h
    show getCommentScan (pre ++ .Node (.Leaf commentBytes :: xsT) :: rest) = _
    rw [getCommentScan_skip_all pre _ h, getCommentScan_hit]
  · intro c0 cs h
    show getCommentScan cs = none
    exact getCommentScan_none cs h

theorem claim_c6_get_comment_witness :
    get_comment (.Leaf [113]) = none ∧
    get_comment (.Node [.Node [.Leaf commentBytes, .Leaf [63]], .Leaf [1],
      .Node [.Leaf commentBytes, .Leaf [7, 8]], .Leaf [2]]) = some [7, 8] ∧
    get_comment (.Node [.Node [.Leaf commentBytes, .Leaf [9]], .Leaf [3]]) = none := by
  refine ⟨claim_c6_get_comment.1 [113], ?_, ?_⟩
  · have h := claim_c6_get_comment.2.1 (.Node [.Leaf commentBytes, .Leaf [63]])
      [.Leaf [1]] [.Leaf [7, 8]] [.Leaf [2]] (by decide)
    simpa using h
  · exact claim_c6_get_comment.2.2 (.Node [.Leaf commentBytes, .Leaf [9]]) [.Leaf [3]]
      (by decide)

/-- C7: `upsert_comment` on a `Node` scans all children in order,
including the first: the first child that is a `Node` whose first
element is `Leaf "comment"` has its entire content replaced by the
two-element sequence `[Leaf "comment", Leaf value]`, with every other
child unchanged in place; if no child matches, a fresh such node is
appended at the end with all existing children unchanged and in order. -/
theorem claim_c7_upsert_comment :
    (∀ pre xsT rest v, (∀ t ∈ pre, isCommentNode t = false) →
      upsert_comment (.Node (pre ++ .Node (.Leaf commentBytes :: xsT) :: rest)) v =
        .Node (pre ++ .Node [.Leaf commentBytes, .Leaf v] :: rest)) ∧
    (∀ cs v, (∀ t ∈ cs, isCommentNode t = false) →
      upsert_comment (.Node cs) v = .Node (cs ++ [.Node [.Leaf commentBytes, .Leaf v]])) := by
  constructor
  · intro pre xsT rest v h
    show TokenTree.Node (upsertScan v (pre ++ .Node (.Leaf commentBytes :: xsT) :: rest)) = _
    rw [upsertScan_skip_all v pre _ h, upsertScan_hit]
  · intro cs v h
    show TokenTree.Node (upsertScan v cs) = _
    rw [upsertScan_append v cs h]

theorem claim_c7_upsert_comment_witness :
    upsert_comment (.Node [.Node [.Leaf [110]], .Leaf [5],
      .Node [.Leaf commentBytes, .Leaf [113], .Leaf [9]], .Leaf [6]]) [98] =
      .Node [.Node [.Leaf [110]], .Leaf [5],
        .Node [.Leaf commentBytes, .Leaf [98]], .Leaf [6]] ∧
    upsert_comment (.Node [.Leaf [112], .Node [.Leaf [110]]]) [99] =
      .Node [.Leaf [112], .Node [.Leaf [110]], .Node [.Leaf commentBytes, .Leaf [99]]] := by
  constructor
  · have h := claim_c7_upsert_comment.1 [.Node [.Leaf [110]], .Leaf [5]]
      [.Leaf [113], .Leaf [9]] [.Leaf [6]] [98] (by decide)
    simpa using h
  · have h := claim_c7_upsert_comment.2 [.Leaf [112], .Node [.Leaf [110]]] [99] (by decide)
    simpa using h

/-- C8: `upsert_comment` applied to a `Leaf` tree returns normally and
leaves the tree completely unchanged — the mutator never fails and on a
`Leaf` target it is a no-op (the early `return` of the Rust code). -/
theorem claim_c8_leaf_noop : ∀ bs v, upsert_comment (.Leaf bs) v = .Leaf bs :=
  fun _ _ => rfl

/-- C9: for every `Node` with at least one child whose first child is
not a comment field node, and every value `v`, updating with
`upsert_comment` and then reading with `get_comment` yields `Some v`:
the mutator either replaces a matching child at position one or later or
appends a new one at the end, and in both cases the accessor — which
skips the first child — finds it first. -/
theorem claim_c9_upsert_then_get (c0 : TokenTree) (cs : List TokenTree) (v : List Nat)
    (h : isCommentNode c0 = false) :
    get_comment (upsert_comment (.Node (c0 :: cs)) v) = some v := by
  show get_comment (.Node (upsertScan v (c0 :: cs))) = some v
  rw [upsertScan_skip v c0 cs h]
  show getCommentScan (upsertScan v cs) = some v
  exact getCommentScan_upsertScan cs v

theorem claim_c9_upsert_then_get_witness :
    isCommentNode (.Leaf [107]) = false ∧
    get_comment (upsert_comment (.Node [.Leaf [107]]) [104, 105]) = some [104, 105] :=
  ⟨by decide, claim_c9_upsert_then_get (.Leaf [107]) [] [104, 105] (by decide)⟩

/-- C10: a child is recognized as the comment field based only on its
first element being `Leaf "comment"`, regardless of arity: for a
matching child with three or more elements, `get_comment` returns the
bytes of its second element when that element is a `Leaf`, and
`upsert_comment` replaces the whole child with the two-element
`[Leaf "comment", Leaf value]`, discarding the extra elements. -/
theorem claim_c10_extra_children :
    (∀ c0 bs x2 more rest,
      get_comment (.Node (c0 ::
          .Node (.Leaf commentBytes :: .Leaf bs :: x2 :: more) :: rest)) = some bs) ∧
    (∀ y1 y2 ys rest w,
      upsert_comment (.Node (.Node (.Leaf commentBytes :: y1 :: y2 :: ys) :: rest)) w =
        .Node (.Node [.Leaf commentBytes, .Leaf w] :: rest)) := by
  constructor
  · intro c0 bs x2 more rest
    show getCommentScan (.Node (.Leaf commentBytes :: .Leaf bs :: x2 :: more) :: rest) =
      some bs
    rw [getCommentScan_hit]
  · intro y1 y2 ys rest w
    show TokenTree.Node
        (upsertScan w (.Node (.Leaf commentBytes :: y1 :: y2 :: ys) :: rest)) = _
    rw [upsertScan_hit]
